import Mathlib

/-!
Shallow embedding of the core normalization pipeline of geoapify_from_any.py:
polyline encoding, bounding-box clamping and padding, the coordinate order
resolver, per-file downsampling, global track-point capping, marker
deduplication, marker density reduction, and the KML/KMZ marker suppression
rule.  Coordinates are modelled as rationals, Python ints as Lean integers
and naturals, and strings returned to the caller as lists of character code
points where only the codes matter.
-/

set_option maxHeartbeats 1000000

abbrev Pt := ℚ × ℚ

abbrev Cand := ℚ × ℚ × String

variable {α : Type}

/-- Floor of a rational as an integer: the numerator floor-divided by the
denominator (the denominator is positive, so this is the mathematical
floor). -/
def qfloor (q : ℚ) : ℤ := q.num.fdiv q.den

/-- Minimum of two rationals, written out so that it evaluates by kernel
reduction; same value as Python min on two numbers. -/
def qmin (a b : ℚ) : ℚ := if a ≤ b then a else b

/-- Maximum of two rationals, written out so that it evaluates by kernel
reduction; same value as Python max on two numbers. -/
def qmax (a b : ℚ) : ℚ := if b ≤ a then a else b

/-- Models Python round() to the nearest integer with ties going to the even
neighbour, as used by int(round(x)) in encode_polyline and by round(x, 7) in
the marker dedup key. -/
def pyRound (q : ℚ) : ℤ :=
  let f := qfloor q
  let r := q - f
  if r < 1/2 then f
  else if 1/2 < r then f + 1
  else if f % 2 = 0 then f else f + 1

/-- Models round(x, 7) from the marker dedup key (main, lines 558 and 636). -/
def round7 (q : ℚ) : ℚ := (pyRound (q * 10 ^ 7) : ℚ) / 10 ^ 7

/-- Stride walker behind the Python slices l[::n] and l[1:-1:n]: at countdown 0
the element is kept and the countdown resets to n - 1, so for countdown 0 the
kept indices are 0, n, 2n, and so on. -/
def everyNthGo (n : ℕ) : ℕ → List α → List α
  | _, [] => []
  | 0, a :: t => a :: everyNthGo n (n - 1) t
  | k + 1, _ :: t => everyNthGo n k t

/-- Models the Python slice l[::n] (elements at indices 0, n, 2n, ...). -/
def everyNth (n : ℕ) (l : List α) : List α := everyNthGo n 0 l

/-- Models the Python slice l[1:-1]: the interior of a list, without its first
and last element. -/
def sliceInterior (l : List α) : List α := (l.drop 1).dropLast

/-- Python bitwise complement on an unbounded int: ~x = -x - 1. -/
def intNot (x : ℤ) : ℤ := -x - 1

/-- Zig-zag step of encode_polyline (line 85): s = ~(d << 1) if d < 0 else
d << 1.  The result is nonnegative in both branches, so it is returned as a
natural number. -/
def zigzag (d : ℤ) : ℕ := if d < 0 then (intNot (d * 2)).toNat else (d * 2).toNat

/-- The while loop of encode_polyline (lines 86-88), indexed by fuel: while
s >= 0x20 emit (0x20 | (s & 0x1f)) + 63 and shift s right by 5; afterwards
emit s + 63. -/
def chunksGo : ℕ → ℕ → List ℕ
  | 0, s => [s + 63]
  | fuel + 1, s =>
    if 32 ≤ s then ((32 ||| (s &&& 31)) + 63) :: chunksGo fuel (s >>> 5)
    else [s + 63]

/-- Code points emitted for one zig-zagged delta.  Fuel s is enough because
the loop divides s by 32 on every iteration. -/
def chunks (s : ℕ) : List ℕ := chunksGo s s

/-- The per-point loop of encode_polyline (lines 80-88): carries the previous
scaled integer coordinates and appends the groups of both deltas. -/
def encGo (factor : ℚ) (prevLat prevLon : ℤ) : List Pt → List ℕ
  | [] => []
  | (lat, lon) :: rest =>
    chunks (zigzag (pyRound (lat * factor) - prevLat)) ++
      chunks (zigzag (pyRound (lon * factor) - prevLon)) ++
      encGo factor (pyRound (lat * factor)) (pyRound (lon * factor)) rest

/-- encode_polyline (lines 76-89); the returned string is modelled as the list
of the code points of its characters. -/
def encode_polyline (points : List Pt) (precision : ℕ) : List ℕ :=
  encGo ((10 : ℚ) ^ precision) 0 0 points

/-- Successive deltas of a list of integer pairs against a running previous
value: the delta-encode step of the spec, started from (0, 0). -/
def deltas (prev : ℤ × ℤ) : List (ℤ × ℤ) → List (ℤ × ℤ)
  | [] => []
  | p :: rest => (p.1 - prev.1, p.2 - prev.2) :: deltas p rest

/-- Zig-zag as the spec words it: value<<1 when the value is non-negative, the
bitwise complement of value<<1 when it is negative. -/
def zigzagSpec (d : ℤ) : ℕ := if 0 ≤ d then (d * 2).toNat else (intNot (d * 2)).toNat

/-- Five-bit groups as the spec words them: least-significant base-32 digit
first, every digit except the last carrying the continuation bit 0x20, and
character offset 63 added to each group. -/
def chunksSpec (s : ℕ) : List ℕ :=
  if h : 32 ≤ s then (32 + s % 32 + 63) :: chunksSpec (s / 32) else [s + 63]
termination_by s
decreasing_by exact Nat.div_lt_self (by omega) (by omega)

/-- The Polyline Codec as the spec describes it: scale each coordinate by
10^precision, round to nearest, delta-encode against the previous point
starting from (0, 0), zig-zag each signed delta, and emit the 5-bit groups of
every delta in order. -/
def encodeSpec (points : List Pt) (precision : ℕ) : List ℕ :=
  let ints := points.map fun p =>
    (pyRound (p.1 * 10 ^ precision), pyRound (p.2 * 10 ^ precision))
  (deltas (0, 0) ints).flatMap fun d =>
    chunksSpec (zigzagSpec d.1) ++ chunksSpec (zigzagSpec d.2)

/-- A bounding rectangle in the order clamp_bbox returns it. -/
structure Rect where
  lat1 : ℚ
  lat2 : ℚ
  lon1 : ℚ
  lon2 : ℚ
deriving DecidableEq

/-- clamp_bbox (lines 91-99): clamp both axes to world bounds, then swap the
ends of an axis whose ordering the clamping inverted. -/
def clamp_bbox (lat1 lat2 lon1 lon2 : ℚ) : Rect :=
  let lat1c := qmax (-90) (qmin 90 lat1)
  let lat2c := qmax (-90) (qmin 90 lat2)
  let lon1c := qmax (-180) (qmin 180 lon1)
  let lon2c := qmax (-180) (qmin 180 lon2)
  let p := if lat2c < lat1c then (lat2c, lat1c) else (lat1c, lat2c)
  let q := if lon2c < lon1c then (lon2c, lon1c) else (lon1c, lon2c)
  ⟨p.1, p.2, q.1, q.2⟩

/-- Forced coordinate order of the TRC resolver (the --order option). -/
inductive CoordOrder where
  | lonlat
  | latlon
deriving DecidableEq

/-- Plausible-longitude test of find_pair. -/
def plausLon (x : ℚ) : Bool := decide (-180 ≤ x) && decide (x ≤ 180)

/-- Plausible-latitude test of find_pair. -/
def plausLat (x : ℚ) : Bool := decide (-90 ≤ x) && decide (x ≤ 90)

/-- find_pair (lines 289-306): scan adjacent pairs of the token list left to
right and return the first pair plausible under the applicable
interpretation, as a (lat, lon) pair. -/
def find_pair (force : Option CoordOrder) : List ℚ → Option Pt
  | [] => none
  | a :: rest =>
    match rest with
    | [] => none
    | b :: _ =>
      match force with
      | some .lonlat =>
        if plausLon a && plausLat b then some (b, a) else find_pair force rest
      | some .latlon =>
        if plausLat a && plausLon b then some (a, b) else find_pair force rest
      | none =>
        if plausLon a && plausLat b then some (b, a)
        else if plausLat a && plausLon b then some (a, b)
        else find_pair none rest

/-- Token of the list at index i, 0 when the index is out of range; used only
to phrase the spec-level description of find_pair by position. -/
def tokAt (nums : List ℚ) (i : ℕ) : ℚ := nums.getD i 0

/-- The applicable plausibility test of the spec at position i: the forced
reading when an order is forced, otherwise either reading. -/
def plausPairAt (force : Option CoordOrder) (nums : List ℚ) (i : ℕ) : Bool :=
  match force with
  | some .lonlat => plausLon (tokAt nums i) && plausLat (tokAt nums (i + 1))
  | some .latlon => plausLat (tokAt nums i) && plausLon (tokAt nums (i + 1))
  | none =>
    (plausLon (tokAt nums i) && plausLat (tokAt nums (i + 1))) ||
      (plausLat (tokAt nums i) && plausLon (tokAt nums (i + 1)))

/-- The (lat, lon) pair the spec emits at a winning position, the
longitude-then-latitude reading being checked first when no order is
forced. -/
def interpAt (force : Option CoordOrder) (nums : List ℚ) (i : ℕ) : Pt :=
  match force with
  | some .lonlat => (tokAt nums (i + 1), tokAt nums i)
  | some .latlon => (tokAt nums i, tokAt nums (i + 1))
  | none =>
    if plausLon (tokAt nums i) && plausLat (tokAt nums (i + 1)) then
      (tokAt nums (i + 1), tokAt nums i)
    else (tokAt nums i, tokAt nums (i + 1))

/-- The Coordinate Order Resolver as the spec words it: scan the positions of
adjacent pairs left to right; the first position whose applicable
interpretation is plausible wins. -/
def specFindPair (force : Option CoordOrder) (nums : List ℚ) : Option Pt :=
  match (List.range (nums.length - 1)).find? (plausPairAt force nums) with
  | some i => some (interpAt force nums i)
  | none => none

/-- Per-file downsampling (main, lines 597-598): when thin > 1 and segs is
nonempty, segs = [seg[::thin] for seg in segs if len(seg) >= 2].  Note that
the length test inspects the segment before it is downsampled. -/
def thinSegs (thin : ℕ) (segs : List (List Pt)) : List (List Pt) :=
  if 1 < thin ∧ segs ≠ [] then (segs.filter fun s => 2 ≤ s.length).map (everyNth thin)
  else segs

/-- The helper _thin_by_step (lines 657-662): keep the first point, the
interior at the given stride, and the last point. -/
def thin_by_step (seg : List Pt) (step : ℕ) : List Pt :=
  if step ≤ 1 then seg
  else if seg.length ≤ 2 then seg
  else
    let out := seg.take 1 ++ everyNth step (sliceInterior seg) ++
      seg.drop (seg.length - 1)
    if 2 ≤ out.length then out else seg

/-- Total number of track points over all collected segments (line 664). -/
def totalPoints (segs : List (List Pt)) : ℕ := (segs.map List.length).sum

/-- Global track-point capping (main, lines 664-675): when the cap is nonzero
and exceeded, thin every segment by the single stride ceil(total/cap) and
keep the segments that still have at least 2 points. -/
def cap_track_points (cap : ℕ) (segs : List (List Pt)) : List (List Pt) :=
  if cap ≠ 0 ∧ cap < totalPoints segs then
    (segs.map fun s => thin_by_step s ((totalPoints segs + (cap - 1)) / cap)).filter
      fun s => 2 ≤ s.length
  else segs

/-- Name truncation (main, lines 634-635): when a maximum length is set and
exceeded, keep the first max(1, maxLen - 1) characters and append an
ellipsis. -/
def truncName (maxLen : ℕ) (nm : String) : String :=
  if maxLen ≠ 0 ∧ maxLen < nm.length ∧ 0 < maxLen then
    (nm.take (max 1 (maxLen - 1))).push '…'
  else nm

/-- Marker dedup key (lines 558 and 636): 7-decimal-rounded coordinates plus
the possibly-truncated name. -/
def dedupKey (maxLen : ℕ) (c : Cand) : Cand :=
  (round7 c.1, round7 c.2.1, truncName maxLen c.2.2)

/-- The marker emitted for a candidate: its coordinates and its
possibly-truncated label (lines 639-642). -/
def emitMarker (maxLen : ℕ) (c : Cand) : Cand := (c.1, c.2.1, truncName maxLen c.2.2)

/-- The dedup loop of main (lines 631-642): a candidate whose key is already
in the seen set is skipped; otherwise its key is recorded and its marker
appended. -/
def addMarkersGo (maxLen : ℕ) (seen : List Cand) : List Cand → List Cand
  | [] => []
  | c :: rest =>
    if dedupKey maxLen c ∈ seen then addMarkersGo maxLen seen rest
    else emitMarker maxLen c :: addMarkersGo maxLen (dedupKey maxLen c :: seen) rest

/-- Run the dedup loop from the initially empty seen set (line 531). -/
def addMarkers (maxLen : ℕ) (cands : List Cand) : List Cand := addMarkersGo maxLen [] cands

/-- The seen set left behind by the dedup loop. -/
def seenAfter (maxLen : ℕ) (seen : List Cand) : List Cand → List Cand
  | [] => seen
  | c :: rest =>
    if dedupKey maxLen c ∈ seen then seenAfter maxLen seen rest
    else seenAfter maxLen (dedupKey maxLen c :: seen) rest

/-- First-occurrence dedup as the spec words it: keep a candidate, drop every
later candidate carrying the same key, and continue with the rest. -/
def specDedup (maxLen : ℕ) : List Cand → List Cand
  | [] => []
  | c :: rest =>
    emitMarker maxLen c ::
      specDedup maxLen (rest.filter fun d => dedupKey maxLen d ≠ dedupKey maxLen c)
termination_by l => l.length
decreasing_by simpa using Nat.lt_succ_of_le (List.length_filter_le _ _)

/-- Marker Density Reducer (main, lines 725-729): first marker, interior
sampled from index 1 at stride max(1, ceil(n/maxMarkers)), the last marker,
then truncation to the first maxMarkers entries. -/
def thinMarkers (maxMarkers : ℕ) (thinOn : Bool) (markers : List α) : List α :=
  if maxMarkers ≠ 0 ∧ thinOn = true ∧ maxMarkers < markers.length then
    (markers.take 1 ++
        everyNth (max 1 ((markers.length + (maxMarkers - 1)) / maxMarkers))
          (sliceInterior markers) ++
        markers.drop (markers.length - 1)).take maxMarkers
  else markers

/-- KML/KMZ marker suppression decision (main, lines 617-623): when the file
produced line geometry and its placemark-marker count exceeds
max(100, maxMarkers), that file contributes no markers at all. -/
def kmx_select_markers (segs : List (List Pt)) (positions : List Cand)
    (maxMarkers : ℕ) : List Cand :=
  if segs ≠ [] ∧ max 100 maxMarkers < positions.length then [] else positions

/-- Per-file KML/KMZ processing: line geometry is kept unconditionally while
the markers pass through the suppression decision. -/
def kmx_process_file (maxMarkers : ℕ) (f : List (List Pt) × List Cand) :
    List (List Pt) × List Cand :=
  (f.1, kmx_select_markers f.1 f.2 maxMarkers)

/-- Fold over a batch of KML/KMZ files: the list of per-file geometries and
the concatenation of the per-file marker contributions. -/
def kmx_process_batch (maxMarkers : ℕ) :
    List (List (List Pt) × List Cand) → List (List (List Pt)) × List Cand
  | [] => ([], [])
  | f :: rest =>
    ((kmx_process_file maxMarkers f).1 :: (kmx_process_batch maxMarkers rest).1,
      (kmx_process_file maxMarkers f).2 ++ (kmx_process_batch maxMarkers rest).2)

/-- Pointwise trkpt handling of parse_gpx_segments (lines 190-198): each raw
trkpt is modelled by the outcome of its two float conversions, none when a
conversion raises.  A failed point is skipped and a parsed point is appended
with no range check. -/
def gpx_trkseg_points (raw : List (Option Pt)) : List Pt := raw.filterMap id

/-- A trkseg is kept only when it still has at least 2 points (line 198). -/
def gpx_trkseg_segs (raw : List (Option Pt)) : List (List Pt) :=
  if 2 ≤ (gpx_trkseg_points raw).length then [gpx_trkseg_points raw] else []

/-- Running minimum over a list, seeded by its first element; the empty case
is unreachable because main only computes the area when a point exists. -/
def foldMin (l : List ℚ) : ℚ :=
  match l with
  | [] => 0
  | a :: t => t.foldl qmin a

/-- Running maximum over a list, seeded by its first element. -/
def foldMax (l : List ℚ) : ℚ :=
  match l with
  | [] => 0
  | a :: t => t.foldl qmax a

/-- Latitudes of a point list. -/
def latsOf (pts : List Pt) : List ℚ := pts.map Prod.fst

/-- Longitudes of a point list. -/
def lonsOf (pts : List Pt) : List ℚ := pts.map Prod.snd

/-- The padded and clamped area of main (lines 740-747) over every
contributing point: per-axis padding max(padFrac * extent, padMinDeg)
applied outward, then clamp_bbox. -/
def area_rect (padFrac padMinDeg : ℚ) (pts : List Pt) : Rect :=
  clamp_bbox
    (foldMin (latsOf pts) - qmax (padFrac * (foldMax (latsOf pts) - foldMin (latsOf pts))) padMinDeg)
    (foldMax (latsOf pts) + qmax (padFrac * (foldMax (latsOf pts) - foldMin (latsOf pts))) padMinDeg)
    (foldMin (lonsOf pts) - qmax (padFrac * (foldMax (lonsOf pts) - foldMin (lonsOf pts))) padMinDeg)
    (foldMax (lonsOf pts) + qmax (padFrac * (foldMax (lonsOf pts) - foldMin (lonsOf pts))) padMinDeg)

theorem everyNthGo_sublist (n : ℕ) : ∀ (k : ℕ) (l : List α), List.Sublist (everyNthGo n k l) l
  | _, [] => by simp [everyNthGo]
  | 0, a :: t => List.Sublist.cons₂ a (everyNthGo_sublist n (n - 1) t)
  | k + 1, a :: t => List.Sublist.cons a (everyNthGo_sublist n k t)

theorem length_everyNthGo (n : ℕ) (hn : 1 ≤ n) :
    ∀ (k : ℕ) (l : List α), (everyNthGo n k l).length = (l.length - k + (n - 1)) / n := by
  intro k l
  induction l generalizing k with
  | nil =>
    simp only [everyNthGo, List.length_nil]
    rw [Nat.div_eq_of_lt (by omega)]
  | cons a t ih =>
    match k with
    | 0 =>
      simp only [everyNthGo, List.length_cons, ih (n - 1)]
      have h2 : t.length + 1 - 0 + (n - 1) = t.length + n := by omega
      rw [h2, Nat.add_div_right _ (by omega)]
      rcases le_or_lt (n - 1) t.length with h | h
      · rw [Nat.sub_add_cancel h]
      · rw [Nat.sub_eq_zero_of_le (by omega), Nat.zero_add,
          Nat.div_eq_of_lt (by omega), Nat.div_eq_of_lt (by omega)]
    | k + 1 =>
      simp only [everyNthGo, List.length_cons, ih k]
      congr 1
      omega

theorem length_everyNth (n : ℕ) (hn : 1 ≤ n) (l : List α) :
    (everyNth n l).length = (l.length + (n - 1)) / n := by
  rw [everyNth, length_everyNthGo n hn 0 l, Nat.sub_zero]

theorem length_sliceInterior (l : List α) : (sliceInterior l).length = l.length - 2 := by
  simp [sliceInterior]
  omega

theorem drop_pred_concat (l : List α) (x : α) :
    (l ++ [x]).drop ((l ++ [x]).length - 1) = [x] := by
  have h : (l ++ [x]).length - 1 = l.length := by simp
  rw [h, List.drop_left]

theorem thin_by_step_out_length (seg : List Pt) (step : ℕ) (h2 : ¬ seg.length ≤ 2) :
    (seg.take 1 ++ everyNth step (sliceInterior seg) ++ seg.drop (seg.length - 1)).length =
      2 + (everyNth step (sliceInterior seg)).length := by
  simp only [List.length_append, List.length_take, List.length_drop]
  omega

theorem thin_by_step_eq (seg : List Pt) (step : ℕ) (h1 : ¬ step ≤ 1)
    (h2 : ¬ seg.length ≤ 2) :
    thin_by_step seg step =
      seg.take 1 ++ everyNth step (sliceInterior seg) ++ seg.drop (seg.length - 1) := by
  rw [thin_by_step, if_neg h1, if_neg h2]
  simp only
  rw [if_pos (by rw [thin_by_step_out_length seg step h2]; omega)]

theorem thin_by_step_head? (seg : List Pt) (step : ℕ) :
    (thin_by_step seg step).head? = seg.head? := by
  by_cases h1 : step ≤ 1
  · rw [thin_by_step, if_pos h1]
  by_cases h2 : seg.length ≤ 2
  · rw [thin_by_step, if_neg h1, if_pos h2]
  rw [thin_by_step_eq seg step h1 h2]
  cases seg with
  | nil => simp at h2
  | cons a t => simp

theorem thin_by_step_getLast? (seg : List Pt) (step : ℕ) :
    (thin_by_step seg step).getLast? = seg.getLast? := by
  by_cases h1 : step ≤ 1
  · rw [thin_by_step, if_pos h1]
  by_cases h2 : seg.length ≤ 2
  · rw [thin_by_step, if_neg h1, if_pos h2]
  rw [thin_by_step_eq seg step h1 h2]
  rcases List.eq_nil_or_concat seg with rfl | ⟨l, x, rfl⟩
  · simp at h2
  · simp only [List.concat_eq_append] at h2 ⊢
    rw [drop_pred_concat, List.getLast?_concat, List.getLast?_concat]

theorem thin_by_step_length_le (seg : List Pt) (step : ℕ) (hs : 1 ≤ step) :
    (thin_by_step seg step).length ≤ seg.length / step + 3 := by
  by_cases h1 : step ≤ 1
  · rw [thin_by_step, if_pos h1]
    have : step = 1 := by omega
    subst this
    simp
  by_cases h2 : seg.length ≤ 2
  · rw [thin_by_step, if_neg h1, if_pos h2]
    exact le_trans (by omega : seg.length ≤ 3) (Nat.le_add_left 3 _)
  rw [thin_by_step_eq seg step h1 h2, thin_by_step_out_length seg step h2,
    length_everyNth step hs, length_sliceInterior]
  have hcore : (seg.length - 2 + (step - 1)) / step ≤ (seg.length - 2) / step + 1 := by
    calc (seg.length - 2 + (step - 1)) / step ≤ (seg.length - 2 + step) / step :=
          Nat.div_le_div_right (by omega)
      _ = (seg.length - 2) / step + 1 := Nat.add_div_right _ (by omega)
  have hmono : (seg.length - 2) / step ≤ seg.length / step :=
    Nat.div_le_div_right (by omega)
  omega

theorem totalPoints_nil : totalPoints [] = 0 := rfl

theorem totalPoints_cons (s : List Pt) (segs : List (List Pt)) :
    totalPoints (s :: segs) = s.length + totalPoints segs := by
  simp [totalPoints]

theorem totalPoints_filter_le (p : List Pt → Bool) (segs : List (List Pt)) :
    totalPoints (segs.filter p) ≤ totalPoints segs := by
  induction segs with
  | nil => simp [totalPoints]
  | cons s rest ih =>
    rw [totalPoints_cons]
    by_cases hp : p s
    · rw [List.filter_cons_of_pos hp, totalPoints_cons]
      omega
    · rw [List.filter_cons_of_neg (by simpa using hp)]
      omega

theorem totalPoints_map_thin_le (step : ℕ) (hs : 1 ≤ step) (segs : List (List Pt)) :
    totalPoints (segs.map fun s => thin_by_step s step) ≤
      totalPoints segs / step + 3 * segs.length := by
  induction segs with
  | nil => simp [totalPoints]
  | cons s rest ih =>
    rw [List.map_cons, totalPoints_cons, totalPoints_cons]
    have h1 := thin_by_step_length_le s step hs
    have h2 := Nat.add_div_le_add_div s.length (totalPoints rest) step
    simp only [List.length_cons]
    omega

theorem take_core_last_sublist (l : List α) (h : 2 ≤ l.length) (n : ℕ) :
    List.Sublist (l.take 1 ++ everyNth n (sliceInterior l) ++ l.drop (l.length - 1)) l := by
  cases l with
  | nil => simp at h
  | cons a t =>
    rcases List.eq_nil_or_concat t with rfl | ⟨t', x, rfl⟩
    · simp at h
    · simp only [List.concat_eq_append]
      have hdrop : (a :: (t' ++ [x])).drop ((a :: (t' ++ [x])).length - 1) = [x] := by
        have hl : (a :: (t' ++ [x])).length - 1 = t'.length + 1 := by simp
        rw [hl, List.drop_succ_cons, List.drop_left]
      have hside : sliceInterior (a :: (t' ++ [x])) = t' := by
        simp [sliceInterior]
      rw [hdrop, hside]
      have hshape : (a :: (t' ++ [x])).take 1 ++ everyNth n t' ++ [x] =
          a :: (everyNth n t' ++ [x]) := by simp
      rw [hshape]
      exact List.Sublist.cons₂ a
        (List.Sublist.append (everyNthGo_sublist n 0 t') (List.Sublist.refl [x]))

/-- Claim C1, counterexample: with cap = 3 and two five-point segments (10
points in total, stride ceil(10/3) = 4) the capped output still holds 6
points, so the post-cap total is not at most cap. -/
theorem c1_counterexample :
    totalPoints (cap_track_points 3
      [[((0:ℚ), (0:ℚ)), (0, 1), (0, 2), (0, 3), (0, 4)],
       [((1:ℚ), (0:ℚ)), (1, 1), (1, 2), (1, 3), (1, 4)]]) = 6 ∧
    ¬ totalPoints (cap_track_points 3
      [[((0:ℚ), (0:ℚ)), (0, 1), (0, 2), (0, 3), (0, 4)],
       [((1:ℚ), (0:ℚ)), (1, 1), (1, 2), (1, 3), (1, 4)]]) ≤ 3 := by decide

/-- Claim C1 (amended): when the retained segments hold more than cap > 0
total points, the normalizer computes the single stride ceil(total/cap),
applies it uniformly to every segment and keeps each segment's first and
last point; the resulting total is at most cap + 3 times the number of
segments (endpoint preservation can push it above cap itself). -/
theorem c1_global_cap_amended (cap : ℕ) (segs : List (List Pt))
    (hcap : cap ≠ 0) (hover : cap < totalPoints segs) :
    cap_track_points cap segs =
      (segs.map fun s => thin_by_step s ((totalPoints segs + (cap - 1)) / cap)).filter
        (fun s => 2 ≤ s.length) ∧
    totalPoints (cap_track_points cap segs) ≤ cap + 3 * segs.length ∧
    ∀ s ∈ segs,
      (thin_by_step s ((totalPoints segs + (cap - 1)) / cap)).head? = s.head? ∧
      (thin_by_step s ((totalPoints segs + (cap - 1)) / cap)).getLast? = s.getLast? := by
  have heq : cap_track_points cap segs =
      (segs.map fun s => thin_by_step s ((totalPoints segs + (cap - 1)) / cap)).filter
        (fun s => 2 ≤ s.length) := by
    rw [cap_track_points, if_pos ⟨hcap, hover⟩]
  have hstep1 : 1 ≤ (totalPoints segs + (cap - 1)) / cap :=
    (Nat.one_le_div_iff (by omega)).mpr (by omega)
  refine ⟨heq, ?_, fun s _ => ⟨thin_by_step_head? _ _, thin_by_step_getLast? _ _⟩⟩
  rw [heq]
  have hchain1 := totalPoints_filter_le (fun s => decide (2 ≤ s.length))
    (segs.map fun s => thin_by_step s ((totalPoints segs + (cap - 1)) / cap))
  have hchain2 := totalPoints_map_thin_le ((totalPoints segs + (cap - 1)) / cap) hstep1 segs
  have hmul : totalPoints segs ≤ cap * ((totalPoints segs + (cap - 1)) / cap) := by
    have hdm := Nat.div_add_mod (totalPoints segs + (cap - 1)) cap
    have hlt := Nat.mod_lt (totalPoints segs + (cap - 1)) (show 0 < cap by omega)
    omega
  have hmul2 : totalPoints segs ≤ (totalPoints segs + (cap - 1)) / cap * cap := by
    rw [Nat.mul_comm]
    exact hmul
  have hdiv : totalPoints segs / ((totalPoints segs + (cap - 1)) / cap) ≤ cap :=
    Nat.div_le_of_le_mul hmul2
  omega

/-- Claim C1, witness: the amended bound instantiated at cap = 3 and the two
five-point segments. -/
theorem c1_global_cap_amended_witness :
    (3 : ℕ) ≠ 0 ∧
    3 < totalPoints
      [[((0:ℚ), (0:ℚ)), (0, 1), (0, 2), (0, 3), (0, 4)],
       [((1:ℚ), (0:ℚ)), (1, 1), (1, 2), (1, 3), (1, 4)]] ∧
    totalPoints (cap_track_points 3
      [[((0:ℚ), (0:ℚ)), (0, 1), (0, 2), (0, 3), (0, 4)],
       [((1:ℚ), (0:ℚ)), (1, 1), (1, 2), (1, 3), (1, 4)]]) ≤ 3 + 3 * 2 :=
  ⟨by decide, by decide,
    (c1_global_cap_amended 3
      [[((0:ℚ), (0:ℚ)), (0, 1), (0, 2), (0, 3), (0, 4)],
       [((1:ℚ), (0:ℚ)), (1, 1), (1, 2), (1, 3), (1, 4)]]
      (by decide) (by decide)).2.1⟩

/-- Claim C2: with thin = 2 a parsed segment of exactly 2 points is emitted
as a 1-point segment, because the per-file downsampling filters on the
length of the segment before it is downsampled; the ≥2-point invariant is
not re-checked afterwards. -/
theorem c2_thin_invariant_failure :
    thinSegs 2 [[((0:ℚ), (0:ℚ)), ((1:ℚ), (1:ℚ))]] = [[((0:ℚ), (0:ℚ))]] ∧
    ∀ s ∈ thinSegs 2 [[((0:ℚ), (0:ℚ)), ((1:ℚ), (1:ℚ))]], s.length < 2 := by decide

/-- Claim C3, counterexample: for 10 markers and cap 4 the reducer returns
items 0, 1, 4 and 7 — the original last marker (item 9) is cut off by the
final truncation, so it is not kept unconditionally and the result is not
item 0, item 9 plus two interior items; and for 6 markers and cap 5 the
result has only 4 markers, not exactly the cap count. -/
theorem c3_counterexample :
    thinMarkers 4 true (List.range 10) = [0, 1, 4, 7] ∧
    (9 : ℕ) ∉ thinMarkers 4 true (List.range 10) ∧
    (thinMarkers 5 true (List.range 6)).length ≠ 5 := by decide

/-- Claim C3 (amended): when thinning is enabled and n > cap ≥ 1, the reducer
builds first marker, interior sampled from index 1 at stride
max(1, ceil(n/cap)), then last marker, and truncates that list to its first
cap entries; the result therefore has at most cap markers, keeps the first
marker, and is a subsequence of the input in original relative order, while
the appended last marker survives only when the truncation does not cut it
off. -/
theorem c3_marker_thin_amended (maxM : ℕ) (thinOn : Bool) (markers : List α)
    (hm : maxM ≠ 0) (ht : thinOn = true) (hn : maxM < markers.length) :
    thinMarkers maxM thinOn markers =
      (markers.take 1 ++
        everyNth (max 1 ((markers.length + (maxM - 1)) / maxM)) (sliceInterior markers) ++
        markers.drop (markers.length - 1)).take maxM ∧
    (thinMarkers maxM thinOn markers).length ≤ maxM ∧
    (thinMarkers maxM thinOn markers).head? = markers.head? ∧
    List.Sublist (thinMarkers maxM thinOn markers) markers := by
  have heq : thinMarkers maxM thinOn markers =
      (markers.take 1 ++
        everyNth (max 1 ((markers.length + (maxM - 1)) / maxM)) (sliceInterior markers) ++
        markers.drop (markers.length - 1)).take maxM := by
    rw [thinMarkers, if_pos ⟨hm, ht, hn⟩]
  have hlen2 : 2 ≤ markers.length := by omega
  refine ⟨heq, ?_, ?_, ?_⟩
  · rw [heq]
    simp [List.length_take]
  · rw [heq]
    cases markers with
    | nil => simp at hlen2
    | cons a t =>
      match maxM, hm with
      | m + 1, _ =>
        have hshape : (a :: t).take 1 ++
            everyNth (max 1 (((a :: t).length + (m + 1 - 1)) / (m + 1))) (sliceInterior (a :: t)) ++
            (a :: t).drop ((a :: t).length - 1) =
            a :: (everyNth (max 1 (((a :: t).length + (m + 1 - 1)) / (m + 1))) (sliceInterior (a :: t)) ++
              (a :: t).drop ((a :: t).length - 1)) := by simp
        rw [hshape, List.take_succ_cons]
        rfl
  · rw [heq]
    exact List.Sublist.trans (List.take_sublist _ _)
      (take_core_last_sublist markers hlen2 _)

/-- Claim C3, witness: the amended statement instantiated at 10 markers and
cap 4; the head is kept and the output stays within the cap. -/
theorem c3_marker_thin_amended_witness :
    (4 : ℕ) ≠ 0 ∧ (4 : ℕ) < (List.range 10).length ∧
    (thinMarkers 4 true (List.range 10)).length ≤ 4 ∧
    (thinMarkers 4 true (List.range 10)).head? = (List.range 10).head? :=
  ⟨by decide, by decide,
    (c3_marker_thin_amended 4 true (List.range 10) (by decide) rfl (by decide)).2.1,
    (c3_marker_thin_amended 4 true (List.range 10) (by decide) rfl (by decide)).2.2.1⟩

/-- Claim C9: a KML/KMZ file with line geometry whose marker count exceeds
max(100, configured cap) contributes no markers while its geometry is kept,
and the decision leaves every other file's contribution untouched. -/
theorem c9_kmx_suppression (maxMarkers : ℕ) (f : List (List Pt) × List Cand)
    (rest : List (List (List Pt) × List Cand))
    (hseg : f.1 ≠ []) (hcount : max 100 maxMarkers < f.2.length) :
    kmx_process_file maxMarkers f = (f.1, []) ∧
    kmx_process_batch maxMarkers (f :: rest) =
      (f.1 :: (kmx_process_batch maxMarkers rest).1,
        (kmx_process_batch maxMarkers rest).2) := by
  have hfile : kmx_process_file maxMarkers f = (f.1, []) := by
    rw [kmx_process_file, kmx_select_markers, if_pos ⟨hseg, hcount⟩]
  refine ⟨hfile, ?_⟩
  rw [kmx_process_batch, hfile]
  simp

/-- Claim C9, witness: one KML file with a two-point segment and 101
placemark markers (cap 0, threshold max(100, 0) = 100) is fully
suppressed. -/
theorem c9_kmx_suppression_witness :
    ([[((0:ℚ), (0:ℚ)), ((0:ℚ), (1:ℚ))]] : List (List Pt)) ≠ [] ∧
    max 100 0 < (List.replicate 101 ((0:ℚ), (0:ℚ), "x")).length ∧
    kmx_process_file 0
      ([[((0:ℚ), (0:ℚ)), ((0:ℚ), (1:ℚ))]], List.replicate 101 ((0:ℚ), (0:ℚ), "x")) =
      ([[((0:ℚ), (0:ℚ)), ((0:ℚ), (1:ℚ))]], []) :=
  ⟨by decide, by simp, (c9_kmx_suppression 0
      ([[((0:ℚ), (0:ℚ)), ((0:ℚ), (1:ℚ))]], List.replicate 101 ((0:ℚ), (0:ℚ), "x")) []
      (by decide) (by simp)).1⟩

theorem find_pair_range (force : Option CoordOrder) :
    ∀ (nums : List ℚ) (p : Pt), find_pair force nums = some p →
      -90 ≤ p.1 ∧ p.1 ≤ 90 ∧ -180 ≤ p.2 ∧ p.2 ≤ 180 := by
  intro nums
  induction nums with
  | nil => intro p h; simp [find_pair] at h
  | cons a rest ih =>
    intro p h
    cases rest with
    | nil => simp [find_pair] at h
    | cons b t =>
      rcases force with _ | o
      · simp only [find_pair] at h
        split_ifs at h with hp1 hp2
        · obtain rfl : (b, a) = p := by injection h
          simp only [plausLon, plausLat, Bool.and_eq_true, decide_eq_true_eq] at hp1
          exact ⟨hp1.2.1, hp1.2.2, hp1.1.1, hp1.1.2⟩
        · obtain rfl : (a, b) = p := by injection h
          simp only [plausLon, plausLat, Bool.and_eq_true, decide_eq_true_eq] at hp2
          exact ⟨hp2.1.1, hp2.1.2, hp2.2.1, hp2.2.2⟩
        · exact ih p h
      · cases o with
        | lonlat =>
          simp only [find_pair] at h
          split_ifs at h with hp1
          · obtain rfl : (b, a) = p := by injection h
            simp only [plausLon, plausLat, Bool.and_eq_true, decide_eq_true_eq] at hp1
            exact ⟨hp1.2.1, hp1.2.2, hp1.1.1, hp1.1.2⟩
          · exact ih p h
        | latlon =>
          simp only [find_pair] at h
          split_ifs at h with hp1
          · obtain rfl : (a, b) = p := by injection h
            simp only [plausLon, plausLat, Bool.and_eq_true, decide_eq_true_eq] at hp1
            exact ⟨hp1.1.1, hp1.1.2, hp1.2.1, hp1.2.2⟩
          · exact ih p h

/-- Claim C4, counterexample: a GPX trkseg whose first point carries latitude
200 keeps that point — the parser applies no range check, so the out-of-range
point appears in the emitted segment. -/
theorem c4_counterexample :
    gpx_trkseg_segs [some ((200:ℚ), (10:ℚ)), some ((0:ℚ), (0:ℚ))] =
      [[((200:ℚ), (10:ℚ)), ((0:ℚ), (0:ℚ))]] ∧
    ((200:ℚ), (10:ℚ)) ∈ gpx_trkseg_points [some ((200:ℚ), (10:ℚ)), some ((0:ℚ), (0:ℚ))] ∧
    ¬ ((200:ℚ) ≤ 90) := by decide

/-- Claim C4 (amended): a point whose coordinate text fails numeric
conversion is dropped at the point granularity without aborting the
containing segment, and range validation happens only in the coordinate
order resolver — every pair it accepts satisfies lat in [-90, 90] and lon in
[-180, 180] — while GPX/KML points are appended without any range check. -/
theorem c4_range_amended (raw : List (Option Pt)) (nums : List ℚ)
    (force : Option CoordOrder) (p : Pt) :
    gpx_trkseg_points (none :: raw) = gpx_trkseg_points raw ∧
    (find_pair force nums = some p →
      -90 ≤ p.1 ∧ p.1 ≤ 90 ∧ -180 ≤ p.2 ∧ p.2 ≤ 180) :=
  ⟨by simp [gpx_trkseg_points], fun h => find_pair_range force nums p h⟩

/-- Claim C4, witness: the resolver accepts (20, 50) as lon-lat and the
resulting latitude 50 and longitude 20 are in range; a failed conversion in
front of a trkseg changes nothing. -/
theorem c4_range_amended_witness :
    find_pair none [(20:ℚ), (50:ℚ)] = some ((50:ℚ), (20:ℚ)) ∧
    gpx_trkseg_points (none :: [some ((1:ℚ), (2:ℚ))]) =
      gpx_trkseg_points [some ((1:ℚ), (2:ℚ))] ∧
    -90 ≤ (50:ℚ) ∧ (50:ℚ) ≤ 90 ∧ -180 ≤ (20:ℚ) ∧ (20:ℚ) ≤ 180 :=
  ⟨by decide,
    (c4_range_amended [some ((1:ℚ), (2:ℚ))] [(20:ℚ), (50:ℚ)] none ((50:ℚ), (20:ℚ))).1,
    (c4_range_amended [some ((1:ℚ), (2:ℚ))] [(20:ℚ), (50:ℚ)] none ((50:ℚ), (20:ℚ))).2
      (by decide)⟩

theorem qmin_le_left (a b : ℚ) : qmin a b ≤ a := by
  unfold qmin
  split_ifs with h
  · exact le_refl a
  · exact le_of_not_le h

theorem qmin_le_right (a b : ℚ) : qmin a b ≤ b := by
  unfold qmin
  split_ifs with h
  · exact h
  · exact le_refl b

theorem le_qmin (a b c : ℚ) (h1 : c ≤ a) (h2 : c ≤ b) : c ≤ qmin a b := by
  unfold qmin
  split_ifs <;> assumption

theorem le_qmax_left (a b : ℚ) : a ≤ qmax a b := by
  unfold qmax
  split_ifs with h
  · exact le_refl a
  · exact le_of_not_le h

theorem le_qmax_right (a b : ℚ) : b ≤ qmax a b := by
  unfold qmax
  split_ifs with h
  · exact h
  · exact le_refl b

theorem qmax_le (a b c : ℚ) (h1 : a ≤ c) (h2 : b ≤ c) : qmax a b ≤ c := by
  unfold qmax
  split_ifs <;> assumption

theorem foldl_qmin_le_init (l : List ℚ) (a : ℚ) : l.foldl qmin a ≤ a := by
  induction l generalizing a with
  | nil => simp
  | cons b t ih => exact le_trans (ih (qmin a b)) (qmin_le_left a b)

theorem foldl_qmin_le_mem (l : List ℚ) : ∀ (a x : ℚ), x ∈ l → l.foldl qmin a ≤ x := by
  induction l with
  | nil => intro a x hx; simp at hx
  | cons b t ih =>
    intro a x hx
    rcases List.mem_cons.mp hx with rfl | hx'
    · exact le_trans (foldl_qmin_le_init t (qmin a x)) (qmin_le_right a x)
    · exact ih (qmin a b) x hx'

theorem init_le_foldl_qmax (l : List ℚ) (a : ℚ) : a ≤ l.foldl qmax a := by
  induction l generalizing a with
  | nil => simp
  | cons b t ih => exact le_trans (le_qmax_left a b) (ih (qmax a b))

theorem mem_le_foldl_qmax (l : List ℚ) : ∀ (a x : ℚ), x ∈ l → x ≤ l.foldl qmax a := by
  induction l with
  | nil => intro a x hx; simp at hx
  | cons b t ih =>
    intro a x hx
    rcases List.mem_cons.mp hx with rfl | hx'
    · exact le_trans (le_qmax_right a x) (init_le_foldl_qmax t (qmax a x))
    · exact ih (qmax a b) x hx'

theorem foldMin_le (l : List ℚ) (x : ℚ) (hx : x ∈ l) : foldMin l ≤ x := by
  cases l with
  | nil => simp at hx
  | cons a t =>
    rcases List.mem_cons.mp hx with rfl | hx'
    · exact foldl_qmin_le_init t x
    · exact foldl_qmin_le_mem t a x hx'

theorem le_foldMax (l : List ℚ) (x : ℚ) (hx : x ∈ l) : x ≤ foldMax l := by
  cases l with
  | nil => simp at hx
  | cons a t =>
    rcases List.mem_cons.mp hx with rfl | hx'
    · exact init_le_foldl_qmax t x
    · exact mem_le_foldl_qmax t a x hx'

theorem clamp_bbox_bounds (a b c d : ℚ) :
    -90 ≤ (clamp_bbox a b c d).lat1 ∧ (clamp_bbox a b c d).lat1 ≤ (clamp_bbox a b c d).lat2 ∧
      (clamp_bbox a b c d).lat2 ≤ 90 ∧ -180 ≤ (clamp_bbox a b c d).lon1 ∧
      (clamp_bbox a b c d).lon1 ≤ (clamp_bbox a b c d).lon2 ∧
      (clamp_bbox a b c d).lon2 ≤ 180 := by
  have h90 : (-90 : ℚ) ≤ 90 := by norm_num
  have h180 : (-180 : ℚ) ≤ 180 := by norm_num
  simp only [clamp_bbox]
  split_ifs with h1 h2 h3
  · exact ⟨le_qmax_left _ _, le_of_lt h1, qmax_le _ _ _ h90 (qmin_le_left _ _),
      le_qmax_left _ _, le_of_lt h2, qmax_le _ _ _ h180 (qmin_le_left _ _)⟩
  · exact ⟨le_qmax_left _ _, le_of_lt h1, qmax_le _ _ _ h90 (qmin_le_left _ _),
      le_qmax_left _ _, not_lt.mp h2, qmax_le _ _ _ h180 (qmin_le_left _ _)⟩
  · exact ⟨le_qmax_left _ _, not_lt.mp h1, qmax_le _ _ _ h90 (qmin_le_left _ _),
      le_qmax_left _ _, le_of_lt h3, qmax_le _ _ _ h180 (qmin_le_left _ _)⟩
  · exact ⟨le_qmax_left _ _, not_lt.mp h1, qmax_le _ _ _ h90 (qmin_le_left _ _),
      le_qmax_left _ _, not_lt.mp h3, qmax_le _ _ _ h180 (qmin_le_left _ _)⟩

theorem clamp_bbox_contains (a b c d la lo : ℚ)
    (h1 : a ≤ la) (h2 : la ≤ b) (h3 : -90 ≤ la) (h4 : la ≤ 90)
    (h5 : c ≤ lo) (h6 : lo ≤ d) (h7 : -180 ≤ lo) (h8 : lo ≤ 180) :
    (clamp_bbox a b c d).lat1 ≤ la ∧ la ≤ (clamp_bbox a b c d).lat2 ∧
      (clamp_bbox a b c d).lon1 ≤ lo ∧ lo ≤ (clamp_bbox a b c d).lon2 := by
  have hl1 : qmax (-90 : ℚ) (qmin 90 a) ≤ la :=
    qmax_le _ _ _ h3 (le_trans (qmin_le_right _ _) h1)
  have hl2 : la ≤ qmax (-90 : ℚ) (qmin 90 b) :=
    le_trans (le_qmin _ _ _ h4 h2) (le_qmax_right _ _)
  have hn1 : qmax (-180 : ℚ) (qmin 180 c) ≤ lo :=
    qmax_le _ _ _ h7 (le_trans (qmin_le_right _ _) h5)
  have hn2 : lo ≤ qmax (-180 : ℚ) (qmin 180 d) :=
    le_trans (le_qmin _ _ _ h8 h6) (le_qmax_right _ _)
  simp only [clamp_bbox]
  split_ifs with hs1 hs2 hs3
  · exact absurd hs1 (not_lt.mpr (hl1.trans hl2))
  · exact absurd hs1 (not_lt.mpr (hl1.trans hl2))
  · exact absurd hs3 (not_lt.mpr (hn1.trans hn2))
  · exact ⟨hl1, hl2, hn1, hn2⟩

/-- Claim C5, counterexample: a run can emit points outside world bounds
(see claim C4), and then the clamped box does not contain them: the segment
[(200, 10), (200, 11)] is emitted, the padded-and-clamped box tops out at
latitude 90, and the emitted point (200, 10) lies outside it. -/
theorem c5_counterexample :
    ((200:ℚ), (10:ℚ)) ∈ [((200:ℚ), (10:ℚ)), ((200:ℚ), (11:ℚ))] ∧
    (area_rect (1/5) 0 [((200:ℚ), (10:ℚ)), ((200:ℚ), (11:ℚ))]).lat2 = 90 ∧
    ¬ ((200:ℚ) ≤ (area_rect (1/5) 0 [((200:ℚ), (10:ℚ)), ((200:ℚ), (11:ℚ))]).lat2) := by
  have hval : (area_rect (1/5) 0 [((200:ℚ), (10:ℚ)), ((200:ℚ), (11:ℚ))]).lat2 = 90 := by
    norm_num [area_rect, clamp_bbox, foldMin, foldMax, latsOf, lonsOf, qmin, qmax]
  refine ⟨by decide, hval, ?_⟩
  rw [hval]
  norm_num

/-- Claim C5 (amended): for a run that emits at least one point the padded,
clamped box always satisfies -90 ≤ lat1 ≤ lat2 ≤ 90 and
-180 ≤ lon1 ≤ lon2 ≤ 180; and when the padding fraction is nonnegative and
every contributing point lies within world bounds, every contributing point
lies inside the box. -/
theorem c5_bbox_amended (padFrac padMinDeg : ℚ) (pts : List Pt) (hne : pts ≠ []) :
    (-90 ≤ (area_rect padFrac padMinDeg pts).lat1 ∧
      (area_rect padFrac padMinDeg pts).lat1 ≤ (area_rect padFrac padMinDeg pts).lat2 ∧
      (area_rect padFrac padMinDeg pts).lat2 ≤ 90 ∧
      -180 ≤ (area_rect padFrac padMinDeg pts).lon1 ∧
      (area_rect padFrac padMinDeg pts).lon1 ≤ (area_rect padFrac padMinDeg pts).lon2 ∧
      (area_rect padFrac padMinDeg pts).lon2 ≤ 180) ∧
    (0 ≤ padFrac →
      (∀ p ∈ pts, -90 ≤ p.1 ∧ p.1 ≤ 90 ∧ -180 ≤ p.2 ∧ p.2 ≤ 180) →
      ∀ p ∈ pts,
        (area_rect padFrac padMinDeg pts).lat1 ≤ p.1 ∧
        p.1 ≤ (area_rect padFrac padMinDeg pts).lat2 ∧
        (area_rect padFrac padMinDeg pts).lon1 ≤ p.2 ∧
        p.2 ≤ (area_rect padFrac padMinDeg pts).lon2) := by
  refine ⟨clamp_bbox_bounds _ _ _ _, ?_⟩
  intro hpf hworld p hp
  have hlat1 : foldMin (latsOf pts) ≤ p.1 :=
    foldMin_le _ _ (List.mem_map_of_mem Prod.fst hp)
  have hlat2 : p.1 ≤ foldMax (latsOf pts) :=
    le_foldMax _ _ (List.mem_map_of_mem Prod.fst hp)
  have hlon1 : foldMin (lonsOf pts) ≤ p.2 :=
    foldMin_le _ _ (List.mem_map_of_mem Prod.snd hp)
  have hlon2 : p.2 ≤ foldMax (lonsOf pts) :=
    le_foldMax _ _ (List.mem_map_of_mem Prod.snd hp)
  have hplat : 0 ≤ qmax (padFrac * (foldMax (latsOf pts) - foldMin (latsOf pts))) padMinDeg :=
    le_trans (mul_nonneg hpf (by linarith)) (le_qmax_left _ _)
  have hplon : 0 ≤ qmax (padFrac * (foldMax (lonsOf pts) - foldMin (lonsOf pts))) padMinDeg :=
    le_trans (mul_nonneg hpf (by linarith)) (le_qmax_left _ _)
  obtain ⟨hw1, hw2, hw3, hw4⟩ := hworld p hp
  exact clamp_bbox_contains _ _ _ _ _ _
    (by linarith) (by linarith) hw1 hw2 (by linarith) (by linarith) hw3 hw4

/-- Claim C5, witness: two in-range points with padFrac 0.2 and no minimum
padding; the point (10, 20) lies inside the padded, clamped box. -/
theorem c5_bbox_amended_witness :
    ([((10:ℚ), (20:ℚ)), ((11:ℚ), (22:ℚ))] : List Pt) ≠ [] ∧
    (0:ℚ) ≤ 1/5 ∧
    ((area_rect (1/5) 0 [((10:ℚ), (20:ℚ)), ((11:ℚ), (22:ℚ))]).lat1 ≤ 10 ∧
      (10:ℚ) ≤ (area_rect (1/5) 0 [((10:ℚ), (20:ℚ)), ((11:ℚ), (22:ℚ))]).lat2 ∧
      (area_rect (1/5) 0 [((10:ℚ), (20:ℚ)), ((11:ℚ), (22:ℚ))]).lon1 ≤ 20 ∧
      (20:ℚ) ≤ (area_rect (1/5) 0 [((10:ℚ), (20:ℚ)), ((11:ℚ), (22:ℚ))]).lon2) :=
  ⟨by decide, by norm_num,
    (c5_bbox_amended (1/5) 0 [((10:ℚ), (20:ℚ)), ((11:ℚ), (22:ℚ))] (by decide)).2
      (by norm_num) (by decide) ((10:ℚ), (20:ℚ)) (by decide)⟩

theorem tokAt_cons (a : ℚ) (nums : List ℚ) (i : ℕ) :
    tokAt (a :: nums) (i + 1) = tokAt nums i := by
  simp [tokAt]

theorem plausPairAt_cons (force : Option CoordOrder) (a : ℚ) (nums : List ℚ) (i : ℕ) :
    plausPairAt force (a :: nums) (i + 1) = plausPairAt force nums i := by
  rcases force with _ | o
  · simp [plausPairAt, tokAt_cons]
  · cases o <;> simp [plausPairAt, tokAt_cons]

theorem interpAt_cons (force : Option CoordOrder) (a : ℚ) (nums : List ℚ) (i : ℕ) :
    interpAt force (a :: nums) (i + 1) = interpAt force nums i := by
  rcases force with _ | o
  · simp [interpAt, tokAt_cons]
  · cases o <;> simp [interpAt, tokAt_cons]

theorem find_pair_eq_spec (force : Option CoordOrder) :
    ∀ nums : List ℚ, find_pair force nums = specFindPair force nums := by
  intro nums
  induction nums with
  | nil => simp [find_pair, specFindPair]
  | cons a rest ih =>
    cases rest with
    | nil => simp [find_pair, specFindPair]
    | cons b t =>
      have hlen : (a :: b :: t).length - 1 = t.length + 1 := by simp
      cases h0 : plausPairAt force (a :: b :: t) 0 with
      | true =>
        have hfind : (List.range ((a :: b :: t).length - 1)).find?
            (plausPairAt force (a :: b :: t)) = some 0 := by
          rw [hlen, List.range_succ_eq_map]
          exact List.find?_cons_of_pos _ h0
        rw [specFindPair, hfind]
        rcases force with _ | o
        · cases hX : plausLon a && plausLat b with
          | true => simp [find_pair, interpAt, tokAt, hX]
          | false =>
            cases hY : plausLat a && plausLon b with
            | true => simp [find_pair, interpAt, tokAt, hX, hY]
            | false =>
              exfalso
              simp [plausPairAt, tokAt, hX, hY] at h0
        · cases o with
          | lonlat =>
            simp only [plausPairAt, tokAt, List.getD_cons_zero, List.getD_cons_succ] at h0
            simp [find_pair, interpAt, tokAt, h0]
          | latlon =>
            simp only [plausPairAt, tokAt, List.getD_cons_zero, List.getD_cons_succ] at h0
            simp [find_pair, interpAt, tokAt, h0]
      | false =>
        have hL : find_pair force (a :: b :: t) = find_pair force (b :: t) := by
          rcases force with _ | o
          · have h00 : ((plausLon a && plausLat b) ||
                (plausLat a && plausLon b)) = false := by
              simpa [plausPairAt, tokAt] using h0
            rw [Bool.or_eq_false_iff] at h00
            simp [find_pair, h00.1, h00.2]
          · cases o with
            | lonlat =>
              have h00 : (plausLon a && plausLat b) = false := by
                simpa [plausPairAt, tokAt] using h0
              simp [find_pair, h00]
            | latlon =>
              have h00 : (plausLat a && plausLon b) = false := by
                simpa [plausPairAt, tokAt] using h0
              simp [find_pair, h00]
        have hcomp : (plausPairAt force (a :: b :: t)) ∘ Nat.succ =
            plausPairAt force (b :: t) := by
          funext i
          exact plausPairAt_cons force a (b :: t) i
        rw [specFindPair, hlen, List.range_succ_eq_map,
          List.find?_cons_of_neg _ (by simp [h0]), List.find?_map, hcomp, hL, ih,
          specFindPair]
        have hlen2 : (b :: t).length - 1 = t.length := by simp
        rw [hlen2]
        cases hfind2 : (List.range t.length).find? (plausPairAt force (b :: t)) with
        | none => simp
        | some i => simp [interpAt_cons]

theorem specFindPair_eq_none_iff (force : Option CoordOrder) (nums : List ℚ) :
    specFindPair force nums = none ↔
      ∀ i < nums.length - 1, plausPairAt force nums i = false := by
  rw [specFindPair]
  cases hfind : (List.range (nums.length - 1)).find? (plausPairAt force nums) with
  | some i =>
    simp only []
    constructor
    · intro h
      exact absurd h (by simp)
    · intro hall
      have hi := List.find?_some hfind
      have himem := List.mem_range.mp (List.mem_of_find?_eq_some hfind)
      have := hall i himem
      rw [hi] at this
      exact absurd this (by simp)
  | none =>
    simp only []
    constructor
    · intro _ i hij
      have hnone := List.find?_eq_none.mp hfind i (List.mem_range.mpr hij)
      simpa using hnone
    · intro _
      trivial

/-- Claim C6: the Coordinate Order Resolver coincides with its spec-level
description — scanning adjacent-pair positions left to right, applying the
forced reading when one is forced and otherwise trying the
longitude-then-latitude reading before the latitude-then-longitude reading —
and it returns no result exactly when no adjacent pair is plausible under
the applicable interpretations. -/
theorem c6_find_pair_correct (force : Option CoordOrder) (nums : List ℚ) :
    find_pair force nums = specFindPair force nums ∧
    (find_pair force nums = none ↔
      ∀ i < nums.length - 1, plausPairAt force nums i = false) := by
  refine ⟨find_pair_eq_spec force nums, ?_⟩
  rw [find_pair_eq_spec force nums]
  exact specFindPair_eq_none_iff force nums

/-- Claim C6, witness: on the tokens [300, 50, 20] the unforced resolver
skips the implausible first pair and resolves the pair (50, 20) as
longitude-then-latitude, agreeing with the spec-level search; forcing
lonlat on [300, 400] yields no result because no adjacent pair is
plausible. -/
theorem c6_find_pair_correct_witness :
    find_pair none [(300:ℚ), (50:ℚ), (20:ℚ)] =
      specFindPair none [(300:ℚ), (50:ℚ), (20:ℚ)] ∧
    find_pair (some CoordOrder.lonlat) [(300:ℚ), (400:ℚ)] = none ∧
    find_pair none [(300:ℚ), (50:ℚ), (20:ℚ)] = some ((20:ℚ), (50:ℚ)) :=
  ⟨(c6_find_pair_correct none [(300:ℚ), (50:ℚ), (20:ℚ)]).1,
    (c6_find_pair_correct (some CoordOrder.lonlat) [(300:ℚ), (400:ℚ)]).2.mpr (by decide),
    by decide⟩

theorem zigzag_eq_zigzagSpec (d : ℤ) : zigzag d = zigzagSpec d := by
  unfold zigzag zigzagSpec
  rcases lt_or_le d 0 with h | h
  · rw [if_pos h, if_neg (by omega)]
  · rw [if_neg (by omega), if_pos h]

theorem chunksGo_small (fuel s : ℕ) (h : s < 32) : chunksGo fuel s = [s + 63] := by
  cases fuel with
  | zero => rfl
  | succ f => rw [chunksGo, if_neg (by omega)]

theorem chunksGo_congr (fuel₁ : ℕ) : ∀ (fuel₂ s : ℕ), s ≤ fuel₁ → s ≤ fuel₂ →
    chunksGo fuel₁ s = chunksGo fuel₂ s := by
  induction fuel₁ with
  | zero =>
    intro fuel₂ s h1 h2
    have hz : s = 0 := by omega
    subst hz
    rw [chunksGo_small _ _ (by omega), chunksGo_small _ _ (by omega)]
  | succ f ih =>
    intro fuel₂ s h1 h2
    rcases lt_or_le s 32 with hs | hs
    · rw [chunksGo_small _ _ hs, chunksGo_small _ _ hs]
    · cases fuel₂ with
      | zero => omega
      | succ f₂ =>
        rw [chunksGo, chunksGo, if_pos hs, if_pos hs]
        have hsr : s >>> 5 = s / 32 := by
          rw [Nat.shiftRight_eq_div_pow]
        have hdl : s / 32 < s := Nat.div_lt_self (by omega) (by omega)
        congr 1
        exact ih f₂ (s >>> 5) (by omega) (by omega)

theorem chunks_eq_chunksSpec : ∀ s : ℕ, chunks s = chunksSpec s := by
  intro s
  induction s using Nat.strong_induction_on with
  | _ s ih =>
    rw [chunksSpec]
    split_ifs with h
    · obtain ⟨f, rfl⟩ : ∃ f, s = f + 1 := ⟨s - 1, by omega⟩
      rw [chunks, chunksGo, if_pos h]
      have hand : (f + 1) &&& 31 = (f + 1) % 32 := by
        have h5 := Nat.and_pow_two_sub_one_eq_mod (f + 1) 5
        norm_num at h5
        exact h5
      have hor : ∀ x < 32, 32 ||| x = 32 + x := by decide
      have hsr : (f + 1) >>> 5 = (f + 1) / 32 := by
        rw [Nat.shiftRight_eq_div_pow]
      have hdl : (f + 1) / 32 < f + 1 := Nat.div_lt_self (by omega) (by omega)
      congr 1
      · rw [hand, hor _ (Nat.mod_lt _ (by omega))]
      · rw [hsr, chunksGo_congr f ((f + 1) / 32) ((f + 1) / 32) (by omega) (le_refl _)]
        exact ih ((f + 1) / 32) hdl
    · rw [chunks, chunksGo_small _ _ (by omega)]

theorem encGo_eq_flatMap (factor : ℚ) :
    ∀ (pts : List Pt) (prevLat prevLon : ℤ),
      encGo factor prevLat prevLon pts =
        (deltas (prevLat, prevLon)
          (pts.map fun p => (pyRound (p.1 * factor), pyRound (p.2 * factor)))).flatMap
          (fun d => chunks (zigzag d.1) ++ chunks (zigzag d.2)) := by
  intro pts
  induction pts with
  | nil => intro prevLat prevLon; simp [encGo, deltas]
  | cons p rest ih =>
    intro prevLat prevLon
    obtain ⟨la, lo⟩ := p
    simp only [encGo, List.map_cons, deltas, List.flatMap_cons]
    rw [← ih (pyRound (la * factor)) (pyRound (lo * factor))]

/-- Claim C7: encode_polyline coincides with the spec-level pipeline — scale
each coordinate by 10^precision, round to nearest, delta-encode against the
previous point starting from (0, 0), zig-zag-encode each signed delta, and
emit 5-bit groups least-significant first with continuation bit 0x20 and
character offset 63. -/
theorem c7_encode_polyline_spec (points : List Pt) (precision : ℕ) :
    encode_polyline points precision = encodeSpec points precision := by
  rw [encode_polyline]
  rw [encGo_eq_flatMap ((10:ℚ) ^ precision) points 0 0]
  simp only [encodeSpec, chunks_eq_chunksSpec, zigzag_eq_zigzagSpec]

/-- Claim C7, witness: the point (1, 1) at precision 1 scales to (10, 10),
whose zig-zagged deltas 20, 20 encode as the code points [83, 83] on both
sides of the equivalence. -/
theorem c7_encode_polyline_spec_witness :
    encodeSpec [((1:ℚ), (1:ℚ))] 1 = [83, 83] := by
  have h1 : (1:ℚ) * 10 ^ 1 = 10 := by norm_num
  have hf : qfloor (10:ℚ) = 10 := by decide
  have hpr : pyRound ((1:ℚ) * 10 ^ 1) = 10 := by
    rw [h1]
    simp only [pyRound, hf]
    norm_num
  rw [← c7_encode_polyline_spec, encode_polyline]
  simp only [encGo, hpr]
  decide

theorem chunksSpec_bounds : ∀ (s : ℕ), ∀ c ∈ chunksSpec s, 63 ≤ c ∧ c ≤ 126 := by
  intro s
  induction s using Nat.strong_induction_on with
  | _ s ih =>
    intro c hc
    rw [chunksSpec] at hc
    split_ifs at hc with h
    · rcases List.mem_cons.mp hc with rfl | hc'
      · have := Nat.mod_lt s (show 0 < 32 by omega)
        omega
      · exact ih (s / 32) (Nat.div_lt_self (by omega) (by omega)) c hc'
    · simp only [List.mem_singleton] at hc
      omega

theorem encGo_bounds (factor : ℚ) :
    ∀ (pts : List Pt) (prevLat prevLon : ℤ), ∀ c ∈ encGo factor prevLat prevLon pts,
      63 ≤ c ∧ c ≤ 126 := by
  intro pts
  induction pts with
  | nil => intro _ _ c hc; simp [encGo] at hc
  | cons p rest ih =>
    intro prevLat prevLon c hc
    obtain ⟨la, lo⟩ := p
    simp only [encGo, List.mem_append] at hc
    rcases hc with (hc | hc) | hc
    · exact chunksSpec_bounds _ c (chunks_eq_chunksSpec _ ▸ hc)
    · exact chunksSpec_bounds _ c (chunks_eq_chunksSpec _ ▸ hc)
    · exact ih (pyRound (la * factor)) (pyRound (lo * factor)) c hc

/-- Claim C10: every character code the polyline encoder emits lies between
63 and 126 inclusive — each 5-bit group is at most 63 before the offset 63
is added — so the encoded value is printable ASCII. -/
theorem c10_output_printable (points : List Pt) (precision : ℕ) (c : ℕ)
    (hc : c ∈ encode_polyline points precision) : 63 ≤ c ∧ c ≤ 126 :=
  encGo_bounds ((10:ℚ) ^ precision) points 0 0 c hc

/-- Claim C10, witness: the code point 63 appears in the encoding of the
single point (0, 0) and obeys both bounds. -/
theorem c10_output_printable_witness :
    (63 : ℕ) ∈ encode_polyline [((0:ℚ), (0:ℚ))] 6 ∧ 63 ≤ 63 ∧ 63 ≤ 126 := by
  have h1 : (0:ℚ) * 10 ^ 6 = 0 := by norm_num
  have hf : qfloor (0:ℚ) = 0 := by decide
  have hpr : pyRound ((0:ℚ) * 10 ^ 6) = 0 := by
    rw [h1]
    simp only [pyRound, hf]
    norm_num
  have hmem : (63 : ℕ) ∈ encode_polyline [((0:ℚ), (0:ℚ))] 6 := by
    rw [encode_polyline]
    simp only [encGo, hpr]
    decide
  exact ⟨hmem, c10_output_printable [((0:ℚ), (0:ℚ))] 6 63 hmem⟩

theorem addMarkersGo_append (maxLen : ℕ) :
    ∀ (xs ys seen : List Cand),
      addMarkersGo maxLen seen (xs ++ ys) =
        addMarkersGo maxLen seen xs ++
          addMarkersGo maxLen (seenAfter maxLen seen xs) ys := by
  intro xs
  induction xs with
  | nil => intro ys seen; simp [addMarkersGo, seenAfter]
  | cons c rest ih =>
    intro ys seen
    simp only [List.cons_append, addMarkersGo, seenAfter]
    split_ifs with hk
    · exact ih ys seen
    · simp only [List.append_eq]
      rw [ih ys (dedupKey maxLen c :: seen)]
      simp

theorem mem_seenAfter (maxLen : ℕ) :
    ∀ (xs seen : List Cand) (k : Cand), k ∈ seen → k ∈ seenAfter maxLen seen xs := by
  intro xs
  induction xs with
  | nil => intro seen k hk; simpa [seenAfter] using hk
  | cons c rest ih =>
    intro seen k hk
    simp only [seenAfter]
    split_ifs with h
    · exact ih seen k hk
    · exact ih _ k (List.mem_cons_of_mem _ hk)

theorem dedupKey_mem_seenAfter (maxLen : ℕ) :
    ∀ (xs seen : List Cand) (c : Cand), c ∈ xs →
      dedupKey maxLen c ∈ seenAfter maxLen seen xs := by
  intro xs
  induction xs with
  | nil => intro seen c hc; simp at hc
  | cons d rest ih =>
    intro seen c hc
    simp only [seenAfter]
    rcases List.mem_cons.mp hc with rfl | hc'
    · split_ifs with h
      · exact mem_seenAfter maxLen rest seen _ h
      · exact mem_seenAfter maxLen rest _ _ (List.mem_cons_self _ _)
    · split_ifs with h
      · exact ih seen c hc'
      · exact ih _ c hc'

theorem addMarkersGo_nil_of_seen (maxLen : ℕ) :
    ∀ (xs seen : List Cand), (∀ c ∈ xs, dedupKey maxLen c ∈ seen) →
      addMarkersGo maxLen seen xs = [] := by
  intro xs
  induction xs with
  | nil => intro seen _; rfl
  | cons c rest ih =>
    intro seen hall
    rw [addMarkersGo, if_pos (hall c (List.mem_cons_self _ _))]
    exact ih seen fun d hd => hall d (List.mem_cons_of_mem _ hd)

theorem addMarkersGo_eq_specDedup (maxLen : ℕ) :
    ∀ (xs seen : List Cand),
      addMarkersGo maxLen seen xs =
        specDedup maxLen (xs.filter fun c => decide (dedupKey maxLen c ∉ seen)) := by
  intro xs
  induction xs with
  | nil => intro seen; simp [addMarkersGo, specDedup]
  | cons c rest ih =>
    intro seen
    by_cases hk : dedupKey maxLen c ∈ seen
    · rw [addMarkersGo, if_pos hk, List.filter_cons_of_neg (by simpa using hk)]
      exact ih seen
    · rw [addMarkersGo, if_neg hk, List.filter_cons_of_pos (by simpa using hk), specDedup]
      congr 1
      rw [ih (dedupKey maxLen c :: seen), List.filter_filter]
      congr 1
      apply List.filter_congr
      intro d _
      by_cases h1 : dedupKey maxLen d = dedupKey maxLen c <;>
        by_cases h2 : dedupKey maxLen d ∈ seen <;>
        simp [h1, h2, List.mem_cons]

/-- Claim C8: the dedup key is (round7 lat, round7 lon, truncated name); the
first candidate with a given key across the whole input ordering is the one
emitted (the run coincides with first-occurrence dedup), and processing the
same candidate list twice adds no second copy of any marker. -/
theorem c8_dedup_first_wins (maxLen : ℕ) (cands : List Cand) :
    addMarkers maxLen (cands ++ cands) = addMarkers maxLen cands ∧
    addMarkers maxLen cands = specDedup maxLen cands := by
  constructor
  · rw [addMarkers, addMarkers, addMarkersGo_append maxLen cands cands [],
      addMarkersGo_nil_of_seen maxLen cands (seenAfter maxLen [] cands)
        (fun c hc => dedupKey_mem_seenAfter maxLen cands [] c hc)]
    simp
  · rw [addMarkers, addMarkersGo_eq_specDedup maxLen cands []]
    exact congrArg _ (List.filter_eq_self.mpr (by simp))

/-- Claim C8, witness: duplicated candidate (1, 2, "a") survives only once,
the pair (3, 4, "b") keeps its own key, and running the whole list twice
changes nothing. -/
theorem c8_dedup_first_wins_witness :
    addMarkers 0 ([((1:ℚ), (2:ℚ), "a"), ((1:ℚ), (2:ℚ), "a"), ((3:ℚ), (4:ℚ), "b")] ++
        [((1:ℚ), (2:ℚ), "a"), ((1:ℚ), (2:ℚ), "a"), ((3:ℚ), (4:ℚ), "b")]) =
      addMarkers 0 [((1:ℚ), (2:ℚ), "a"), ((1:ℚ), (2:ℚ), "a"), ((3:ℚ), (4:ℚ), "b")] ∧
    addMarkers 0 [((1:ℚ), (2:ℚ), "a"), ((1:ℚ), (2:ℚ), "a"), ((3:ℚ), (4:ℚ), "b")] =
      [((1:ℚ), (2:ℚ), "a"), ((3:ℚ), (4:ℚ), "b")] :=
  ⟨(c8_dedup_first_wins 0
      [((1:ℚ), (2:ℚ), "a"), ((1:ℚ), (2:ℚ), "a"), ((3:ℚ), (4:ℚ), "b")]).1, by
    simp [addMarkers, addMarkersGo, dedupKey, emitMarker, truncName, Prod.ext_iff]⟩
